import Mathlib

/-!
Shallow embedding of `libs/ardour/slavable_automation_control.cc`
(class `SlavableAutomationControl`), the VCA-style master/slave automation
control of Ardour, together with proofs about its value engine, registry
lifecycle, boolean aggregation, realtime curve compositing and persistence.

Doubles are modelled as exact rationals (`ℚ`); the reader-writer lock is
elided (each operation acts atomically on the state); signals are modelled
by explicit emission counters in the operation results.

Parts of the class live in the header `ardour/slavable_automation_control.h`
which is not part of this excerpt (notably `MasterRecord`'s accessors and
`master_ratio ()`, the base-class set path, and the virtual hooks); those
are modelled from the spec and marked as such in their doc comments.
-/

namespace Ardour

/-- One child of the persisted `masters` XML node: an `id` plus the
optional properties `yn`, `val-ctrl`, `val-master` (a property is absent
for the parameter kind that does not serialize it). -/
structure MasterEntry where
  mid : Nat
  yn : Option Bool
  val_ctrl : Option ℚ
  val_master : Option ℚ
deriving DecidableEq

/-- The non-recursive state of an `AutomationControl` as seen by
`SlavableAutomationControl`: the parameter descriptor (`toggled`, `lower`,
`upper`), the raw user value (`Control::get_double()`), whether the
attached automation list is in playback (`automation_playback()`), whether
the control is a `MuteControl` (the `dynamic_pointer_cast` in
`boolean_automation_run_locked`), the envelope value at the transport
position (`Control::get_double (true, transport_frame)`), the result of
`ControlList::rt_safe_eval` at a frame (`none` models `valid == false`),
the curve evaluation used by `rt_safe_get_vector` (a success flag per
range and a per-sample value), the control's `PBD::ID`, and the stashed
`_masters_node` kept by `set_state` for deferred resolution. -/
structure ControlCore where
  toggled : Bool
  lower : ℚ
  upper : ℚ
  rawVal : ℚ
  playback : Bool
  isMute : Bool
  envNow : ℚ
  rtSafeEval : Nat → Option ℚ
  curveOk : Nat → Nat → Bool
  curveVal : Nat → Nat → Nat → ℚ
  cid : Nat
  mastersNode : Option (List MasterEntry)

/-- Modelled from the spec: `MasterRecord` is declared in the missing
header `ardour/slavable_automation_control.h`.  Per the spec's data model
it holds a handle to the master, the two attach-time snapshots `val_ctrl`
and `val_master`, and the cached boolean `yn`; the registry key (the
master's `PBD::ID`) is stored here as `mid`.  The weak handle is modelled
by embedding the master control's state. -/
structure MasterRecord (C : Type) where
  mid : Nat
  master : C
  val_ctrl : ℚ
  val_master : ℚ
  yn : Bool

/-- A `SlavableAutomationControl`: its base-control state plus the master
registry `_masters` (a `std::map` keyed by the master's id, modelled as a
duplicate-free association list). -/
inductive Control : Type where
  | mk : ControlCore → List (MasterRecord Control) → Control

/-- The base-control state of a control. -/
def Control.core : Control → ControlCore
  | .mk k _ => k

/-- The master registry `_masters` of a control. -/
def Control.masters : Control → List (MasterRecord Control)
  | .mk _ ms => ms

/-- A control's `PBD::ID` (`id()`). -/
def Control.cid (c : Control) : Nat := c.core.cid

mutual

/-- `SlavableAutomationControl::get_value()`: if the control is driven by
envelope playback the result is the envelope value at the transport frame
times the combined masters' value, otherwise `get_value_locked ()`
(inlined here: empty registry returns the raw value; a toggled control
whose own raw value is non-zero short-circuits to `upper`; otherwise the
raw value times the combined masters' value). -/
def Control.get_value : Control → ℚ
  | .mk k ms =>
    if k.playback then k.envNow * mastersValueLocked k ms
    else if ms.isEmpty then k.rawVal
    else if k.toggled ∧ k.rawVal ≠ 0 then k.upper
    else k.rawVal * mastersValueLocked k ms

/-- `SlavableAutomationControl::get_masters_value_locked()`: for toggled
controls, `upper` as soon as some master's value is truthy else `lower`;
for continuous controls the product of the masters' ratios (`v = 1.0`
initially, multiplied by `master_ratio ()` per record).  The master's
ratio is the master's own composite value — modelled from the spec:
`MasterRecord::master_ratio ()` lives in the missing header, and the spec
says a master contributes its OWN composite ratio, recursively through
master chains. -/
def mastersValueLocked (k : ControlCore) : List (MasterRecord Control) → ℚ
  | [] => if k.toggled then k.lower else 1
  | ⟨_, m, _, _, _⟩ :: rest =>
    if k.toggled then
      if m.get_value ≠ 0 then k.upper else mastersValueLocked k rest
    else m.get_value * mastersValueLocked k rest

end

/-- Modelled from the spec: `MasterRecord::master_ratio ()` (missing
header) — a master's current contribution factor is its own composite
value, so chains compose transitively. -/
def MasterRecord.master_ratio (mr : MasterRecord Control) : ℚ :=
  mr.master.get_value

/-- `SlavableAutomationControl::get_value_locked()` as a standalone
function (the wrapper `get_value` above inlines it). -/
def Control.get_value_locked : Control → ℚ
  | .mk k ms =>
    if ms.isEmpty then k.rawVal
    else if k.toggled ∧ k.rawVal ≠ 0 then k.upper
    else k.rawVal * mastersValueLocked k ms

/-- `_masters.find (id)` on the registry: the record whose key equals the
given id (`std::map` keys are unique, so the first match). -/
def findRec : List (MasterRecord Control) → Nat → Option (MasterRecord Control)
  | [], _ => none
  | mr :: rest, i => if mr.mid = i then some mr else findRec rest i

/-- Membership of an id in the registry (`_masters.find (id) != _masters.end ()`). -/
def containsRec (ms : List (MasterRecord Control)) (i : Nat) : Bool :=
  (findRec ms i).isSome

/-- `_masters.erase (id)`: removes the (unique) record with the given key. -/
def eraseRec : List (MasterRecord Control) → Nat → List (MasterRecord Control)
  | [], _ => []
  | mr :: rest, i => if mr.mid = i then rest else mr :: eraseRec rest i

/-- `MasterRecord::set_yn` applied through `_masters.find (id)`:
overwrite the cached boolean of the record with the given key. -/
def updateYn : List (MasterRecord Control) → Nat → Bool → List (MasterRecord Control)
  | [], _, _ => []
  | mr :: rest, i, b => if mr.mid = i then { mr with yn := b } :: rest else mr :: updateYn rest i b

/-- `SlavableAutomationControl::update_boolean_masters_records (m)`: when
the control is toggled, find `m`'s record and store whether the master is
currently on (`set_yn (m->get_value ())`, with C++ double truthiness). -/
def Control.update_boolean_masters_records : Control → Control → Control
  | .mk k ms, m =>
    if k.toggled then .mk k (updateYn ms m.cid (decide (m.get_value ≠ 0))) else .mk k ms

/-- Result of `SlavableAutomationControl::add_master`: the new control
state, whether the insertion took place (`res.second`), the number of
`MasterStatusChange` emissions, the number of event subscriptions made
(`DropReferences` and `Changed`), and the number of calls to the
`post_add_master` extension hook. -/
structure AddResult where
  ctrl : Control
  inserted : Bool
  statusChanges : Nat
  subscriptions : Nat
  hookCalls : Nat

/-- `SlavableAutomationControl::add_master (m, loading)`: snapshot the
master's value, insert a fresh record keyed by `m->id ()` carrying
`get_value_locked ()` and the master snapshot (`std::map::insert` fails if
the key is present); on insertion subscribe to the master's
`DropReferences` and `Changed` signals and emit `MasterStatusChange`
once; unconditionally call `post_add_master` and
`update_boolean_masters_records`.  The fresh record's cached boolean
starts false (modelled from the spec: `MasterRecord`'s constructor is in
the missing header; the initial value is immediately overwritten for
toggled controls by `update_boolean_masters_records`). -/
def Control.add_master : Control → Control → AddResult
  | .mk k ms, m =>
    let master_value := m.get_value
    let fresh := ¬ containsRec ms m.cid
    let ms1 := if fresh then
        ms ++ [⟨m.cid, m, Control.get_value_locked (.mk k ms), master_value, false⟩]
      else ms
    { ctrl := Control.update_boolean_masters_records (.mk k ms1) m
      inserted := fresh
      statusChanges := if fresh then 1 else 0
      subscriptions := if fresh then 2 else 0
      hookCalls := 1 }

/-- Result of `remove_master` / `clear_masters`: the new control state and
the number of `MasterStatusChange` emissions. -/
structure RemoveResult where
  ctrl : Control
  statusChanges : Nat

/-- `SlavableAutomationControl::remove_master (m)`: look `m` up in the
registry; when present, permanently apply its `master_ratio ()` to the raw
value, erase the record, store the new raw value through the base
`set_double` and emit `MasterStatusChange` once; when absent, a silent
no-op.  The base `AutomationControl::set_double` is modelled from the
spec as storing the value (the spec's permanence rule:
`new_raw = old_raw × ratio (candidate)`). -/
def Control.remove_master : Control → Control → RemoveResult
  | .mk k ms, m =>
    match findRec ms m.cid with
    | none => ⟨.mk k ms, 0⟩
    | some mr =>
      ⟨.mk { k with rawVal := k.rawVal * mr.master_ratio } (eraseRec ms m.cid), 1⟩

/-- `SlavableAutomationControl::clear_masters ()`: a no-op on an empty
registry; otherwise permanently apply the combined masters' value to the
raw value, clear the registry and emit `MasterStatusChange` once. -/
def Control.clear_masters : Control → RemoveResult
  | .mk k ms =>
    if ms.isEmpty then ⟨.mk k ms, 0⟩
    else ⟨.mk { k with rawVal := k.rawVal * mastersValueLocked k ms } [], 1⟩

/-- `SlavableAutomationControl::actually_set_value (value, gcd)`: for a
continuous control with a non-empty registry, back-solve the raw value by
dividing by the combined masters' value — forced to `0` without division
when that value is `0` — and clamp to `[lower, upper]`; toggled controls
(and continuous controls without masters) pass the value through.  The
delegation to `AutomationControl::actually_set_value` is modelled from
the spec as the base set path storing the value. -/
def Control.actually_set_value : Control → ℚ → Control
  | .mk k ms, v =>
    let v1 :=
      if ¬ k.toggled ∧ ¬ ms.isEmpty then
        let masters_value := mastersValueLocked k ms
        if masters_value = 0 then 0
        else max k.lower (min k.upper (v / masters_value))
      else v
    .mk { k with rawVal := v1 } ms

/-- `AutomationControl::set_value_unchecked` as used on a master inside
`boolean_automation_run_locked`: it routes into the control's own set
path (for the toggled masters visited there this simply stores the
value). -/
def Control.set_value_unchecked (c : Control) (v : ℚ) : Control :=
  c.actually_set_value v

mutual

/-- `SlavableAutomationControl::boolean_automation_run (start, len)`:
runs the locked variant under a reader lock and reports whether any
cached master boolean flipped; the wrapper emits this control's own
`Changed` signal once exactly when that is the case (see
`boolean_run_self_signals`). -/
def Control.boolean_automation_run (s len : Nat) : Control → Control × Bool
  | .mk k ms =>
    if k.toggled then
      let r := barlMasters s len ms
      (.mk k r.1, r.2)
    else (.mk k ms, false)

/-- The loop body of
`SlavableAutomationControl::boolean_automation_run_locked`: skip masters
without automation playback or that are not toggled; recurse into a
master's own aggregation pass when it is a `MuteControl`; evaluate the
master's envelope at `start` (skip on invalid); on a flip of the cached
boolean accumulate `handle_master_change` (constantly true in this
class), store the new cached boolean, push the new value into the master
via `set_value_unchecked` and emit the master's own `Changed` signal. -/
def barlMasters (s len : Nat) : List (MasterRecord Control) → List (MasterRecord Control) × Bool
  | [] => ([], false)
  | ⟨i, m, vc, vm, yn0⟩ :: rest =>
    if m.core.playback ∧ m.core.toggled then
      let sub := if m.core.isMute then Control.boolean_automation_run s len m else (m, false)
      match sub.1.core.rtSafeEval s with
      | none =>
        let r := barlMasters s len rest
        (⟨i, sub.1, vc, vm, yn0⟩ :: r.1, sub.2 || r.2)
      | some x =>
        let ynN := decide (x ≥ 1 / 2)
        if ynN = yn0 then
          let r := barlMasters s len rest
          (⟨i, sub.1, vc, vm, yn0⟩ :: r.1, sub.2 || r.2)
        else
          let m2 := sub.1.set_value_unchecked (if ynN then 1 else 0)
          let r := barlMasters s len rest
          (⟨i, m2, vc, vm, ynN⟩ :: r.1, true || (sub.2 || r.2))
    else
      let r := barlMasters s len rest
      (⟨i, m, vc, vm, yn0⟩ :: r.1, r.2)

end

/-- The number of times `boolean_automation_run` emits THIS control's own
`Changed` signal after releasing the lock: once when the locked pass
reported a flip, zero times otherwise. -/
def Control.boolean_run_self_signals (s len : Nat) (c : Control) : Nat :=
  if (c.boolean_automation_run s len).2 then 1 else 0

mutual

/-- All cached master booleans (`MasterRecord::yn`) of a control,
recursively through master chains. -/
def Control.ynsDeep : Control → List Bool
  | .mk _ ms => ynsDeepList ms

/-- All cached booleans stored in a registry, recursively. -/
def ynsDeepList : List (MasterRecord Control) → List Bool
  | [] => []
  | ⟨_, m, _, _, yn0⟩ :: rest => yn0 :: (m.ynsDeep ++ ynsDeepList rest)

end

/-- The loop `for i < veclen: vec[i] *= scratch[i]` of
`masters_curve_multiply`, where `scratch[i]` is the i-th evaluated curve
sample: multiply the buffer index-wise. -/
def mulIdx (f : Nat → ℚ) : List ℚ → List ℚ
  | [] => []
  | x :: xs => x * f 0 :: mulIdx (fun n => f (n + 1)) xs

/-- `apply_gain_to_buffer (vec, veclen, gain)` from
`ardour/runtime_functions.h`: multiply every sample by the gain. -/
def apply_gain_to_buffer (vec : List ℚ) (g : ℚ) : List ℚ :=
  vec.map (· * g)

mutual

/-- `SlavableAutomationControl::masters_curve_multiply (start, end, vec,
veclen)`: evaluate this control's own envelope over the range
(`rt_safe_get_vector` — success is `curveOk`, the samples `curveVal`);
on success multiply the buffer element-wise by the evaluated samples,
otherwise by the constant raw value; then fold over the masters,
recursing into each master's compositor and afterwards multiplying the
buffer by that master's current scalar ratio; return whether any curve
(own or nested) was active. -/
def Control.masters_curve_multiply (s e : Nat) : Control → List ℚ → List ℚ × Bool
  | .mk k ms, vec =>
    let rv := k.curveOk s e
    let vec1 := if rv then mulIdx (k.curveVal s e) vec else apply_gain_to_buffer vec k.rawVal
    if ms.isEmpty then (vec1, rv)
    else mcmMasters s e ms (vec1, rv)

/-- The master loop of `masters_curve_multiply`: recurse into the
master's compositor on the running buffer, then apply the master's
scalar ratio (`mr->second.master_ratio ()`, spec-modelled as the
master's own composite value) to the buffer, accumulating the
active-curve flag with `rv |= ...`. -/
def mcmMasters (s e : Nat) : List (MasterRecord Control) → List ℚ × Bool → List ℚ × Bool
  | [], acc => acc
  | ⟨_, m, _, _, _⟩ :: rest, acc =>
    let sub := m.masters_curve_multiply s e acc.1
    mcmMasters s e rest (apply_gain_to_buffer sub.1 m.get_value, acc.2 || sub.2)

end

mutual

/-- Whether any automation curve is active for this control or,
recursively, for any of its masters — the boolean that
`masters_curve_multiply` returns. -/
def Control.curveActiveDeep (s e : Nat) : Control → Bool
  | .mk k ms => k.curveOk s e || anyCurveActive s e ms

/-- Whether some master in the registry has an active curve, recursively. -/
def anyCurveActive (s e : Nat) : List (MasterRecord Control) → Bool
  | [] => false
  | ⟨_, m, _, _, _⟩ :: rest => m.curveActiveDeep s e || anyCurveActive s e rest

end

mutual

/-- The per-sample factor by which `masters_curve_multiply` scales buffer
index `i`: this control's own envelope sample (or its constant raw value
when the envelope is inactive) times, for every master, that master's own
recursive factor times the master's scalar ratio. -/
def Control.curveFactor (s e i : Nat) : Control → ℚ
  | .mk k ms =>
    (if k.curveOk s e then k.curveVal s e i else k.rawVal) * mastersCurveFactor s e i ms

/-- The masters' part of `curveFactor`. -/
def mastersCurveFactor (s e i : Nat) : List (MasterRecord Control) → ℚ
  | [] => 1
  | ⟨_, m, _, _, _⟩ :: rest =>
    m.curveFactor s e i * m.get_value * mastersCurveFactor s e i rest

end

/-- The `masters` node emitted by `SlavableAutomationControl::get_state`:
absent when the registry is empty, otherwise one child per record holding
the master's id and — per parameter kind — either the cached boolean `yn`
(toggled) or the two snapshots `val-ctrl` / `val-master` (continuous). -/
def Control.get_state_masters : Control → Option (List MasterEntry)
  | .mk k ms =>
    if ms.isEmpty then none
    else some (ms.map fun mr =>
      if k.toggled then ⟨mr.master.cid, some mr.yn, none, none⟩
      else ⟨mr.master.cid, none, some mr.val_ctrl, some mr.val_master⟩)

/-- `SlavableAutomationControl::set_state`: stash the `masters` child of
the incoming node verbatim into `_masters_node` for deferred resolution. -/
def Control.set_state : Control → Option (List MasterEntry) → Control
  | .mk k ms, node => .mk { k with mastersNode := node } ms

/-- `SlavableAutomationControl::MasterRecord::set_state`: each of `yn`,
`val-ctrl`, `val-master` is overwritten exactly when the property is
present on the node (`XMLNode::get_property` leaves the variable untouched
otherwise). -/
def MasterRecord.apply_entry (mr : MasterRecord Control) (e : MasterEntry) : MasterRecord Control :=
  { mr with
    yn := e.yn.getD mr.yn
    val_ctrl := e.val_ctrl.getD mr.val_ctrl
    val_master := e.val_master.getD mr.val_master }

/-- One iteration of `use_saved_master_ratios`: look the entry's id up in
the registry and apply the saved sub-state onto the matching record; an
unmatched id is silently skipped. -/
def applyEntry : List (MasterRecord Control) → MasterEntry → List (MasterRecord Control)
  | [], _ => []
  | mr :: rest, e =>
    if mr.mid = e.mid then mr.apply_entry e :: rest else mr :: applyEntry rest e

/-- `SlavableAutomationControl::use_saved_master_ratios`: a no-op without
a stashed `masters` node; otherwise walk the stashed children, apply each
saved sub-state onto the matching registry record, and discard the
stash. -/
def Control.use_saved_master_ratios : Control → Control
  | .mk k ms =>
    match k.mastersNode with
    | none => .mk k ms
    | some entries => .mk { k with mastersNode := none } (entries.foldl applyEntry ms)

/-- The list of the attached masters' ratios, in registry order
(the `r1 … rn` of the spec). -/
def ratioList (ms : List (MasterRecord Control)) : List ℚ :=
  ms.map MasterRecord.master_ratio

/-- A standalone control (empty registry, no envelope), used as concrete
input in the witness theorems. -/
def simpleControl (t : Bool) (lo hi raw : ℚ) (i : Nat) : Control :=
  .mk ⟨t, lo, hi, raw, false, false, 0, fun _ => none, fun _ _ => false, fun _ _ _ => 0, i, none⟩ []

/-- A slaved control over a given registry (no envelope), used as
concrete input in the witness theorems. -/
def slavedControl (t : Bool) (lo hi raw : ℚ) (i : Nat)
    (ms : List (MasterRecord Control)) : Control :=
  .mk ⟨t, lo, hi, raw, false, false, 0, fun _ => none, fun _ _ => false, fun _ _ _ => 0, i, none⟩ ms

/-- A continuous master at value `1/2`, id 1. -/
def wMhalf : Control := simpleControl false 0 2 (1 / 2) 1

/-- A continuous slave at raw value 4 with `wMhalf` attached. -/
def wC1 : Control := slavedControl false 0 2 4 0 [⟨1, wMhalf, 4, 1, false⟩]

/-- A toggled master that is on (value 1), id 3. -/
def wOn : Control := simpleControl true 0 1 1 3

/-- A toggled master that is off (value 0), id 5. -/
def wOff : Control := simpleControl true 0 1 0 5

/-- A toggled slave that is itself off, with the on master `wOn` attached. -/
def wC2 : Control := slavedControl true 0 1 0 4 [⟨3, wOn, 0, 1, true⟩]

/-- A toggled slave that is itself on, with the off master `wOff` attached. -/
def wC3 : Control := slavedControl true 0 1 1 6 [⟨5, wOff, 1, 0, false⟩]

/-- A continuous master at value 3, id 1. -/
def wM3 : Control := simpleControl false 0 4 3 1

/-- A continuous slave at raw value 2 with `wM3` attached
(composite value 6). -/
def wC4 : Control := slavedControl false 0 10 2 0 [⟨1, wM3, 2, 3, false⟩]

/-- A continuous master at value 5, id 2, not yet attached to `wC4`. -/
def wM5 : Control := simpleControl false 0 10 5 2

/-- A continuous master with id 11, for the persistence witness. -/
def wP1 : Control := simpleControl false 0 2 1 11

/-- A continuous master with id 12, for the persistence witness. -/
def wP2 : Control := simpleControl false 0 2 1 12

/-- A continuous slave holding snapshot pairs `(3,4)` and `(5,6)` for its
two masters — the state that gets serialized. -/
def wC8a : Control := slavedControl false 0 2 1 10 [⟨11, wP1, 3, 4, false⟩, ⟨12, wP2, 5, 6, true⟩]

/-- The same slave freshly re-built with the same masters re-attached but
blank snapshots — the state onto which the saved ratios are restored. -/
def wC8b : Control := slavedControl false 0 2 1 10 [⟨11, wP1, 0, 0, false⟩, ⟨12, wP2, 0, 0, false⟩]

@[simp] theorem Control.core_mk (k : ControlCore) (ms : List (MasterRecord Control)) :
    (Control.mk k ms).core = k := rfl

@[simp] theorem Control.masters_mk (k : ControlCore) (ms : List (MasterRecord Control)) :
    (Control.mk k ms).masters = ms := rfl

theorem get_value_locked_spec (c : Control) :
    c.get_value = if c.core.playback then c.core.envNow * mastersValueLocked c.core c.masters
      else c.get_value_locked := by
  cases c with
  | mk k ms => simp [Control.get_value, Control.get_value_locked]

theorem mastersValueLocked_eq_prod (k : ControlCore) (ht : k.toggled = false)
    (ms : List (MasterRecord Control)) :
    mastersValueLocked k ms = (ratioList ms).prod := by
  induction ms with
  | nil => simp [mastersValueLocked, ratioList, ht]
  | cons mr rest ih =>
    obtain ⟨i, m, vc, vm, b⟩ := mr
    have h1 : mastersValueLocked k (⟨i, m, vc, vm, b⟩ :: rest)
        = m.get_value * mastersValueLocked k rest := by
      simp [mastersValueLocked, ht]
    have h2 : ratioList (⟨i, m, vc, vm, b⟩ :: rest)
        = m.get_value :: ratioList rest := by
      simp [ratioList, MasterRecord.master_ratio]
    rw [h1, h2, List.prod_cons, ih]

theorem mastersValueLocked_rawUpdate (k : ControlCore) (x : ℚ)
    (ms : List (MasterRecord Control)) :
    mastersValueLocked { k with rawVal := x } ms = mastersValueLocked k ms := by
  induction ms with
  | nil => simp [mastersValueLocked]
  | cons mr rest ih =>
    obtain ⟨i, m, vc, vm, b⟩ := mr
    simp [mastersValueLocked, ih]

theorem get_value_continuous (k : ControlCore) (ms : List (MasterRecord Control))
    (ht : k.toggled = false) (hp : k.playback = false) :
    Control.get_value (.mk k ms) = k.rawVal * mastersValueLocked k ms := by
  cases ms with
  | nil => simp [Control.get_value, mastersValueLocked, hp, ht]
  | cons mr rest => simp [Control.get_value, hp, ht]

theorem mastersValueLocked_erase (k : ControlCore) (ht : k.toggled = false) (i : Nat) :
    ∀ ms mr, findRec ms i = some mr →
      mastersValueLocked k ms = mr.master_ratio * mastersValueLocked k (eraseRec ms i) := by
  intro ms
  induction ms with
  | nil => intro mr h; simp [findRec] at h
  | cons hd rest ih =>
    intro mr h
    obtain ⟨j, m, vc, vm, b⟩ := hd
    by_cases hj : j = i
    · subst hj
      simp [findRec] at h
      subst h
      simp [mastersValueLocked, eraseRec, ht, MasterRecord.master_ratio]
    · simp [findRec, hj] at h
      simp [mastersValueLocked, eraseRec, hj, ht, ih mr h]
      ring

/-- C1: for a continuous (non-toggled) control with attached masters at
ratios `r1 … rn`, `get_value ()` returns the raw value multiplied by the
product `r1 × … × rn`, and for a control with no masters `get_value ()`
returns the raw value unchanged (stated for a control whose envelope is
not in automation playback, the mode in which the raw value is read). -/
theorem get_value_continuous_product (c : Control) (hp : c.core.playback = false) :
    (c.core.toggled = false → c.get_value = c.core.rawVal * (ratioList c.masters).prod) ∧
    (c.masters = [] → c.get_value = c.core.rawVal) := by
  cases c with
  | mk k ms =>
    simp only [Control.core_mk, Control.masters_mk] at hp ⊢
    constructor
    · intro ht
      rw [get_value_continuous k ms ht hp, mastersValueLocked_eq_prod k ht]
    · rintro rfl
      simp [Control.get_value, hp]

/-- Witness for C1 at a concrete control: `wC1` with one master at ratio
`1/2`. -/
theorem get_value_continuous_product_witness :
    wC1.core.playback = false ∧ wC1.core.toggled = false ∧
    wC1.get_value = wC1.core.rawVal * (ratioList wC1.masters).prod :=
  ⟨rfl, rfl, (get_value_continuous_product wC1 rfl).1 rfl⟩

/-- C2 (code divergence, evaluated): `wC2` is a toggled control whose own
raw state is off (`rawVal = 0`) while an attached master is on (the
combined masters' value is the `upper` sentinel), yet `get_value ()`
returns `lower` (off), not `upper` (on), contradicting the OR semantics
stated in the spec and in the code's own comment: the final line
multiplies the raw value 0 into the masters' value. -/
theorem toggled_or_semantics_divergence :
    wC2.core.rawVal = 0 ∧
    mastersValueLocked wC2.core wC2.masters = wC2.core.upper ∧
    wC2.get_value = wC2.core.lower ∧
    wC2.core.lower ≠ wC2.core.upper := by
  refine ⟨rfl, ?_, ?_, by norm_num [wC2, slavedControl]⟩
  · norm_num [wC2, wOn, slavedControl, simpleControl, mastersValueLocked, Control.get_value]
  · norm_num [wC2, wOn, slavedControl, simpleControl, mastersValueLocked, Control.get_value]

/-- C3 (counterexample): for the toggled control `wC3` (itself on, with an
off master attached) the composite value changes across
`remove_master`: before removal it reads `upper` (self-on short-circuit),
after removal the raw value has been rescaled by the master's zero ratio
and it reads 0. -/
theorem remove_master_toggled_discontinuity :
    (wC3.remove_master wOff).ctrl.get_value ≠ wC3.get_value := by
  norm_num [wC3, wOff, slavedControl, simpleControl, Control.remove_master, findRec,
    eraseRec, MasterRecord.master_ratio, Control.get_value, Control.cid, mastersValueLocked]

/-- C3 (amended): for every continuous (non-toggled) control that is not
in envelope playback, the composite value returned by `get_value ()` is
the same immediately before and immediately after `remove_master (m)`
(the raw value is rescaled by `m`'s ratio at the instant of removal), and
likewise across `clear_masters ()`; toggled controls do not enjoy this
continuity (see the counterexample). -/
theorem remove_clear_preserve_value_continuous (c m : Control)
    (ht : c.core.toggled = false) (hp : c.core.playback = false) :
    (c.remove_master m).ctrl.get_value = c.get_value ∧
    c.clear_masters.ctrl.get_value = c.get_value := by
  cases c with
  | mk k ms =>
    simp only [Control.core_mk] at ht hp
    constructor
    · cases hf : findRec ms m.cid with
      | none => simp [Control.remove_master, hf]
      | some mr =>
        simp only [Control.remove_master, hf]
        rw [get_value_continuous { k with rawVal := k.rawVal * mr.master_ratio }
            (eraseRec ms m.cid) (by simp [ht]) (by simp [hp]),
          get_value_continuous k ms ht hp,
          mastersValueLocked_rawUpdate k (k.rawVal * mr.master_ratio) (eraseRec ms m.cid),
          mastersValueLocked_erase k ht m.cid ms mr hf]
        dsimp only
        rw [mul_assoc]
    · by_cases he : ms.isEmpty
      · simp [Control.clear_masters, he]
      · simp only [Control.clear_masters, he, if_false, Bool.false_eq_true]
        rw [get_value_continuous { k with rawVal := k.rawVal * mastersValueLocked k ms }
            [] (by simp [ht]) (by simp [hp]),
          get_value_continuous k ms ht hp,
          mastersValueLocked_rawUpdate k (k.rawVal * mastersValueLocked k ms) []]
        have h0 : mastersValueLocked k ([] : List (MasterRecord Control)) = 1 := by
          simp [mastersValueLocked, ht]
        rw [h0, mul_one]

/-- Witness for the amended C3 at a concrete control: `wC1` with the
master `wMhalf` removed, and cleared. -/
theorem remove_clear_preserve_value_continuous_witness :
    wC1.core.toggled = false ∧ wC1.core.playback = false ∧
    (wC1.remove_master wMhalf).ctrl.get_value = wC1.get_value ∧
    wC1.clear_masters.ctrl.get_value = wC1.get_value :=
  ⟨rfl, rfl, (remove_clear_preserve_value_continuous wC1 wMhalf rfl rfl).1,
    (remove_clear_preserve_value_continuous wC1 wMhalf rfl rfl).2⟩

theorem findRec_append_of_none (ms l : List (MasterRecord Control)) (i : Nat)
    (h : findRec ms i = none) : findRec (ms ++ l) i = findRec l i := by
  induction ms with
  | nil => simp
  | cons mr rest ih =>
    by_cases hm : mr.mid = i
    · simp [findRec, hm] at h
    · simp [findRec, hm] at h ⊢
      exact ih h

theorem findRec_updateYn (l : List (MasterRecord Control)) (i : Nat) (b : Bool) :
    findRec (updateYn l i b) i = (findRec l i).map fun r => { r with yn := b } := by
  induction l with
  | nil => simp [updateYn, findRec]
  | cons mr rest ih =>
    by_cases hm : mr.mid = i
    · simp [updateYn, findRec, hm]
    · simp [updateYn, findRec, hm, ih]

theorem containsRec_updateYn (l : List (MasterRecord Control)) (i : Nat) (b : Bool) (j : Nat) :
    containsRec (updateYn l i b) j = containsRec l j := by
  induction l with
  | nil => simp [updateYn]
  | cons mr rest ih =>
    simp only [updateYn]
    by_cases hm : mr.mid = i
    · rw [if_pos hm]
      simp only [containsRec, findRec]
      have hmid : ({ mr with yn := b } : MasterRecord Control).mid = mr.mid := rfl
      rw [hmid]
      by_cases hj : mr.mid = j
      · rw [if_pos hj, if_pos hj]
        rfl
      · rw [if_neg hj, if_neg hj]
    · rw [if_neg hm]
      simp only [containsRec, findRec]
      by_cases hj : mr.mid = j
      · rw [if_pos hj, if_pos hj]
      · rw [if_neg hj, if_neg hj]
        exact ih

theorem length_updateYn (l : List (MasterRecord Control)) (i : Nat) (b : Bool) :
    (updateYn l i b).length = l.length := by
  induction l with
  | nil => simp [updateYn]
  | cons mr rest ih =>
    by_cases hm : mr.mid = i <;> simp [updateYn, hm, ih]

theorem containsRec_append_key (ms : List (MasterRecord Control)) (r : MasterRecord Control)
    (i : Nat) (h : r.mid = i) : containsRec (ms ++ [r]) i = true := by
  induction ms with
  | nil => simp [containsRec, findRec, h]
  | cons mr rest ih =>
    simp only [List.cons_append, containsRec, findRec]
    by_cases hm : mr.mid = i
    · rw [if_pos hm]
      simp
    · rw [if_neg hm]
      exact ih

theorem add_master_ctrl_core (c m : Control) : (c.add_master m).ctrl.core = c.core := by
  cases c with
  | mk k ms =>
    cases htog : k.toggled <;>
      simp [Control.add_master, Control.update_boolean_masters_records, htog]

theorem containsRec_add_master (c m : Control) :
    containsRec (c.add_master m).ctrl.masters m.cid = true := by
  cases c with
  | mk k ms =>
    by_cases hc : containsRec ms m.cid
    · cases htog : k.toggled <;>
        simp [Control.add_master, Control.update_boolean_masters_records, htog, hc,
          containsRec_updateYn]
    · simp only [Bool.not_eq_true] at hc
      cases htog : k.toggled <;>
        simp [Control.add_master, Control.update_boolean_masters_records, htog, hc,
          containsRec_updateYn, containsRec_append_key]

theorem add_master_of_contains (c m : Control) (h : containsRec c.masters m.cid = true) :
    (c.add_master m).statusChanges = 0 ∧ (c.add_master m).subscriptions = 0 ∧
    (c.add_master m).ctrl.masters.length = c.masters.length := by
  cases c with
  | mk k ms =>
    simp only [Control.masters_mk] at h
    cases htog : k.toggled <;>
      simp [Control.add_master, Control.update_boolean_masters_records, htog, h,
        length_updateYn]

/-- The new record appended by a successful `add_master` carries the
attach-time snapshots: `get_value_locked ()` of the slave and the
master's value. -/
theorem add_master_fresh_record (c m : Control) (h : containsRec c.masters m.cid = false) :
    (findRec (c.add_master m).ctrl.masters m.cid).map MasterRecord.val_ctrl
      = some c.get_value_locked ∧
    (findRec (c.add_master m).ctrl.masters m.cid).map MasterRecord.val_master
      = some m.get_value ∧
    (findRec (c.add_master m).ctrl.masters m.cid).map MasterRecord.mid = some m.cid := by
  cases c with
  | mk k ms =>
    simp only [Control.masters_mk] at h
    have hnone : findRec ms m.cid = none := by
      cases hf : findRec ms m.cid with
      | none => rfl
      | some r => simp [containsRec, hf] at h
    have happ : findRec (ms ++ [(⟨m.cid, m, Control.get_value_locked (.mk k ms),
        m.get_value, false⟩ : MasterRecord Control)]) m.cid
        = some ⟨m.cid, m, Control.get_value_locked (.mk k ms), m.get_value, false⟩ := by
      rw [findRec_append_of_none ms _ m.cid hnone]
      simp [findRec]
    cases htog : k.toggled <;>
      simp [Control.add_master, Control.update_boolean_masters_records, htog, h,
        findRec_updateYn, happ]

/-- C4 (counterexample): attaching `wM5` to `wC4` — a control at raw
value 2 that already has the master `wM3` at ratio 3 — snapshots
`val_ctrl = 6`, the composite locked value, not the raw value 2 the
claim requires. -/
theorem add_master_val_ctrl_includes_masters :
    (findRec (wC4.add_master wM5).ctrl.masters wM5.cid).map MasterRecord.val_ctrl = some 6 ∧
    wC4.core.rawVal = 2 ∧ (6 : ℚ) ≠ 2 := by
  refine ⟨?_, rfl, by norm_num⟩
  norm_num [wC4, wM3, wM5, slavedControl, simpleControl, Control.add_master, Control.cid,
    containsRec, findRec, Control.update_boolean_masters_records, Control.get_value_locked,
    mastersValueLocked, Control.get_value, MasterRecord.master_ratio]

/-- C4 (amended): a successful `add_master (m)` creates a record whose
`val_ctrl` is a snapshot of this control's locked composite value
(`get_value_locked ()`, which includes any existing masters'
contribution) at attach time, and whose `val_master` is a snapshot of
`m`'s value at attach time. -/
theorem add_master_snapshots_composite (c m : Control)
    (h : containsRec c.masters m.cid = false) :
    (findRec (c.add_master m).ctrl.masters m.cid).map MasterRecord.val_ctrl
      = some c.get_value_locked ∧
    (findRec (c.add_master m).ctrl.masters m.cid).map MasterRecord.val_master
      = some m.get_value :=
  ⟨(add_master_fresh_record c m h).1, (add_master_fresh_record c m h).2.1⟩

/-- Witness for the amended C4: attaching the fresh master `wM5` to
`wC4`. -/
theorem add_master_snapshots_composite_witness :
    containsRec wC4.masters wM5.cid = false ∧
    (findRec (wC4.add_master wM5).ctrl.masters wM5.cid).map MasterRecord.val_ctrl
      = some wC4.get_value_locked :=
  ⟨rfl, (add_master_snapshots_composite wC4 wM5 rfl).1⟩

/-- C5: for a continuous control with masters attached,
`actually_set_value` stores the requested value divided by the combined
ratio, clamped to `[lower, upper]`; a zero combined ratio forces the raw
value to 0 with no division (and no clamping); toggled controls store
the requested value unchanged. -/
theorem actually_set_value_back_solve (c : Control) (v : ℚ) :
    (c.core.toggled = false → c.masters ≠ [] →
      (c.actually_set_value v).core.rawVal =
        if (ratioList c.masters).prod = 0 then 0
        else max c.core.lower (min c.core.upper (v / (ratioList c.masters).prod))) ∧
    (c.core.toggled = true → (c.actually_set_value v).core.rawVal = v) := by
  cases c with
  | mk k ms =>
    simp only [Control.core_mk, Control.masters_mk]
    constructor
    · intro ht hne
      have hemp : ms.isEmpty = false := by
        cases ms with
        | nil => simp at hne
        | cons a l => simp
      simp [Control.actually_set_value, ht, hemp, mastersValueLocked_eq_prod k ht ms]
    · intro ht
      simp [Control.actually_set_value, ht]

/-- Witness for C5: back-solving on `wC1` (one master at ratio `1/2`). -/
theorem actually_set_value_back_solve_witness :
    wC1.core.toggled = false ∧ wC1.masters ≠ [] ∧
    (wC1.actually_set_value 10).core.rawVal =
      if (ratioList wC1.masters).prod = 0 then 0
      else max wC1.core.lower (min wC1.core.upper (10 / (ratioList wC1.masters).prod)) :=
  ⟨rfl, by simp [wC1, slavedControl],
    (actually_set_value_back_solve wC1 10).1 rfl (by simp [wC1, slavedControl])⟩

/-- C6: calling `add_master (m)` a second time is a registry no-op: the
second call emits no `MasterStatusChange`, makes no subscriptions, and
leaves the registry size at what the single call produced. -/
theorem add_master_idempotent_counts (c m : Control) :
    ((c.add_master m).ctrl.add_master m).statusChanges = 0 ∧
    ((c.add_master m).ctrl.add_master m).subscriptions = 0 ∧
    ((c.add_master m).ctrl.add_master m).ctrl.masters.length
      = (c.add_master m).ctrl.masters.length :=
  add_master_of_contains (c.add_master m).ctrl m (containsRec_add_master c m)

/-- C10: a second `add_master (m)` is not a complete no-op: the
`post_add_master` extension hook still runs (one call), and for toggled
controls the existing record's cached boolean is overwritten with `m`'s
current truth value via `update_boolean_masters_records`. -/
theorem re_add_master_hook_and_yn (c m : Control) :
    ((c.add_master m).ctrl.add_master m).hookCalls = 1 ∧
    (c.core.toggled = true →
      (findRec ((c.add_master m).ctrl.add_master m).ctrl.masters m.cid).map MasterRecord.yn
        = some (decide (m.get_value ≠ 0))) := by
  constructor
  · cases hc : (c.add_master m).ctrl with
    | mk k2 ms2 => simp [Control.add_master]
  · intro htog
    have htog2 : (c.add_master m).ctrl.core.toggled = true := by
      rw [add_master_ctrl_core]; exact htog
    have hcont : containsRec (c.add_master m).ctrl.masters m.cid = true :=
      containsRec_add_master c m
    cases hc : (c.add_master m).ctrl with
    | mk k2 ms2 =>
      rw [hc] at htog2 hcont
      simp only [Control.core_mk, Control.masters_mk] at htog2 hcont
      have hfind : ∃ r, findRec ms2 m.cid = some r := by
        cases hf : findRec ms2 m.cid with
        | none => simp [containsRec, hf] at hcont
        | some r => exact ⟨r, rfl⟩
      obtain ⟨r, hr⟩ := hfind
      simp [Control.add_master, Control.update_boolean_masters_records, htog2,
        containsRec, hr, findRec_updateYn]

/-- Witness for C10: re-attaching the on master `wOn` to the toggled
control `wC2`. -/
theorem re_add_master_hook_and_yn_witness :
    wC2.core.toggled = true ∧
    (findRec ((wC2.add_master wOn).ctrl.add_master wOn).ctrl.masters wOn.cid).map
      MasterRecord.yn = some (decide (wOn.get_value ≠ 0)) :=
  ⟨rfl, (re_add_master_hook_and_yn wC2 wOn).2 rfl⟩

theorem ynsDeep_mk (k : ControlCore) (ms : List (MasterRecord Control)) :
    Control.ynsDeep (.mk k ms) = ynsDeepList ms := by
  simp [Control.ynsDeep]

theorem ynsDeepList_cons (i : Nat) (m : Control) (vc vm : ℚ) (b : Bool)
    (rest : List (MasterRecord Control)) :
    ynsDeepList (⟨i, m, vc, vm, b⟩ :: rest) = b :: (m.ynsDeep ++ ynsDeepList rest) := by
  simp [ynsDeepList]

theorem set_value_unchecked_ynsDeep (c : Control) (v : ℚ) :
    (c.set_value_unchecked v).ynsDeep = c.ynsDeep := by
  cases c with
  | mk k ms =>
    simp [Control.set_value_unchecked, Control.actually_set_value, ynsDeep_mk]

mutual

/-- The boolean aggregation pass, analysed: it preserves the shape of the
deep cached-boolean list; it returns `false` exactly when it changed
nothing at all; and when it returns `true` some cached boolean (at some
depth) has flipped. -/
theorem boolean_run_aux (s len : Nat) (c : Control) :
    ((Control.boolean_automation_run s len c).1.ynsDeep.length = c.ynsDeep.length) ∧
    ((Control.boolean_automation_run s len c).2 = false →
      (Control.boolean_automation_run s len c).1 = c) ∧
    ((Control.boolean_automation_run s len c).2 = true →
      (Control.boolean_automation_run s len c).1.ynsDeep ≠ c.ynsDeep) := by
  cases c with
  | mk k ms =>
    by_cases htog : k.toggled
    · have hrun : Control.boolean_automation_run s len (.mk k ms)
          = (.mk k (barlMasters s len ms).1, (barlMasters s len ms).2) := by
        simp [Control.boolean_automation_run, htog]
      obtain ⟨hlen, hfalse, htrue⟩ := barlMasters_aux s len ms
      rw [hrun]
      refine ⟨by simpa [ynsDeep_mk] using hlen, ?_, ?_⟩
      · intro h
        simp only at h
        simp only [hfalse h]
      · intro h hcontra
        rw [ynsDeep_mk, ynsDeep_mk] at hcontra
        exact htrue h hcontra
    · simp [Control.boolean_automation_run, htog]

/-- The loop of `boolean_automation_run_locked`, analysed the same way. -/
theorem barlMasters_aux (s len : Nat) (l : List (MasterRecord Control)) :
    ((ynsDeepList (barlMasters s len l).1).length = (ynsDeepList l).length) ∧
    ((barlMasters s len l).2 = false → (barlMasters s len l).1 = l) ∧
    ((barlMasters s len l).2 = true →
      ynsDeepList (barlMasters s len l).1 ≠ ynsDeepList l) := by
  cases l with
  | nil => simp [barlMasters]
  | cons hd rest =>
    obtain ⟨i, m, vc, vm, yn0⟩ := hd
    obtain ⟨ihL, ihF, ihT⟩ := barlMasters_aux s len rest
    by_cases hpt : m.core.playback ∧ m.core.toggled
    · simp only [barlMasters, if_pos hpt]
      generalize hsub : (if m.core.isMute then Control.boolean_automation_run s len m
        else (m, false)) = sub
      have hsubL : sub.1.ynsDeep.length = m.ynsDeep.length := by
        by_cases hmute : m.core.isMute
        · rw [← hsub, if_pos hmute]
          exact (boolean_run_aux s len m).1
        · rw [← hsub, if_neg hmute]
      have hsubF : sub.2 = false → sub.1 = m := by
        by_cases hmute : m.core.isMute
        · rw [← hsub, if_pos hmute]
          exact (boolean_run_aux s len m).2.1
        · rw [← hsub, if_neg hmute]
          intro
          rfl
      have hsubT : sub.2 = true → sub.1.ynsDeep ≠ m.ynsDeep := by
        by_cases hmute : m.core.isMute
        · rw [← hsub, if_pos hmute]
          exact (boolean_run_aux s len m).2.2
        · rw [← hsub, if_neg hmute]
          intro h
          simp at h
      cases heval : sub.1.core.rtSafeEval s with
      | none =>
        simp only [heval]
        refine ⟨?_, ?_, ?_⟩
        · simp [ynsDeepList_cons, hsubL, ihL]
        · intro h
          simp only [Bool.or_eq_false_iff] at h
          simp [hsubF h.1, ihF h.2]
        · intro h hcontra
          simp only [ynsDeepList_cons, List.cons.injEq, true_and] at hcontra
          rcases Bool.or_eq_true_iff.mp h with hs | hr
          · exact hsubT hs (List.append_inj_left hcontra hsubL)
          · have hfirst : sub.1.ynsDeep = m.ynsDeep :=
              List.append_inj_left hcontra hsubL
            rw [hfirst] at hcontra
            exact ihT hr (List.append_cancel_left hcontra)
      | some x =>
        simp only [heval]
        by_cases hflip : decide (x ≥ 1 / 2) = yn0
        · simp only [if_pos hflip]
          refine ⟨?_, ?_, ?_⟩
          · simp [ynsDeepList_cons, hsubL, ihL]
          · intro h
            simp only [Bool.or_eq_false_iff] at h
            simp [hsubF h.1, ihF h.2]
          · intro h hcontra
            simp only [ynsDeepList_cons, List.cons.injEq, true_and] at hcontra
            rcases Bool.or_eq_true_iff.mp h with hs | hr
            · exact hsubT hs (List.append_inj_left hcontra hsubL)
            · have hfirst : sub.1.ynsDeep = m.ynsDeep :=
                List.append_inj_left hcontra hsubL
              rw [hfirst] at hcontra
              exact ihT hr (List.append_cancel_left hcontra)
        · simp only [if_neg hflip]
          refine ⟨?_, ?_, ?_⟩
          · simp [ynsDeepList_cons, set_value_unchecked_ynsDeep, hsubL, ihL]
          · intro h
            simp at h
          · intro _ hcontra
            simp only [ynsDeepList_cons, List.cons.injEq] at hcontra
            exact hflip hcontra.1
    · simp only [barlMasters, if_neg hpt]
      refine ⟨?_, ?_, ?_⟩
      · simp [ynsDeepList_cons, ihL]
      · intro h
        simp [ihF h]
      · intro h hcontra
        simp only [ynsDeepList_cons, List.cons.injEq, true_and] at hcontra
        exact ihT h (List.append_cancel_left hcontra)

end

/-- C7: `boolean_automation_run (start, len)` emits this control's own
`Changed` signal exactly once when some master's cached boolean (at any
depth of the master chain) flipped during the pass — even when several
flip in the same pass — and zero times otherwise. -/
theorem boolean_run_signals_once_iff_flip (c : Control) (s len : Nat) :
    Control.boolean_run_self_signals s len c =
      if (Control.boolean_automation_run s len c).1.ynsDeep ≠ c.ynsDeep then 1 else 0 := by
  obtain ⟨hL, hF, hT⟩ := boolean_run_aux s len c
  unfold Control.boolean_run_self_signals
  cases hr : (Control.boolean_automation_run s len c).2 with
  | false =>
    rw [hF hr]
    simp
  | true =>
    simp [hT hr]

theorem getElem_mulIdx (f : Nat → ℚ) (l : List ℚ) (i : Nat) :
    (mulIdx f l)[i]? = (l[i]?).map fun x => x * f i := by
  induction l generalizing f i with
  | nil => simp [mulIdx]
  | cons x xs ih =>
    cases i with
    | zero => simp [mulIdx]
    | succ j => simp [mulIdx, ih]

theorem getElem_gain (l : List ℚ) (g : ℚ) (i : Nat) :
    (apply_gain_to_buffer l g)[i]? = (l[i]?).map fun x => x * g := by
  simp [apply_gain_to_buffer]

mutual

/-- The realtime curve compositor, analysed: the returned flag is exactly
"some curve, own or nested, was active", and the returned buffer is the
input buffer multiplied index-wise by the compositional factor
`curveFactor`. -/
theorem mcm_aux (s e : Nat) (c : Control) (vec : List ℚ) :
    ((c.masters_curve_multiply s e vec).2 = Control.curveActiveDeep s e c) ∧
    (∀ i : Nat, ((c.masters_curve_multiply s e vec).1)[i]? =
      (vec[i]?).map fun x => x * Control.curveFactor s e i c) := by
  cases c with
  | mk k ms =>
    cases ms with
    | nil =>
      constructor
      · simp [Control.masters_curve_multiply, Control.curveActiveDeep, anyCurveActive]
      · intro i
        by_cases hok : k.curveOk s e
        · simp [Control.masters_curve_multiply, Control.curveFactor, mastersCurveFactor,
            hok, getElem_mulIdx]
        · simp [Control.masters_curve_multiply, Control.curveFactor, mastersCurveFactor,
            hok, getElem_gain]
    | cons a as =>
      obtain ⟨hflag, helem⟩ := mcmMasters_aux s e (a :: as)
        ((if k.curveOk s e then mulIdx (k.curveVal s e) vec
          else apply_gain_to_buffer vec k.rawVal), k.curveOk s e)
      constructor
      · rw [show (Control.masters_curve_multiply s e (.mk k (a :: as)) vec)
            = mcmMasters s e (a :: as)
              ((if k.curveOk s e then mulIdx (k.curveVal s e) vec
                else apply_gain_to_buffer vec k.rawVal), k.curveOk s e) from by
            simp [Control.masters_curve_multiply]]
        rw [hflag]
        simp [Control.curveActiveDeep]
      · intro i
        rw [show (Control.masters_curve_multiply s e (.mk k (a :: as)) vec)
            = mcmMasters s e (a :: as)
              ((if k.curveOk s e then mulIdx (k.curveVal s e) vec
                else apply_gain_to_buffer vec k.rawVal), k.curveOk s e) from by
            simp [Control.masters_curve_multiply]]
        rw [helem i]
        by_cases hok : k.curveOk s e
        · cases hv : vec[i]? with
          | none => simp [hok, getElem_mulIdx, hv]
          | some x =>
            simp [hok, getElem_mulIdx, hv, Control.curveFactor]
            ring
        · cases hv : vec[i]? with
          | none => simp [hok, getElem_gain, hv]
          | some x =>
            simp [hok, getElem_gain, hv, Control.curveFactor]
            ring

/-- The master loop of the compositor, analysed the same way over the
running accumulator. -/
theorem mcmMasters_aux (s e : Nat) (l : List (MasterRecord Control)) (acc : List ℚ × Bool) :
    ((mcmMasters s e l acc).2 = (acc.2 || anyCurveActive s e l)) ∧
    (∀ i : Nat, ((mcmMasters s e l acc).1)[i]? =
      (acc.1[i]?).map fun x => x * mastersCurveFactor s e i l) := by
  cases l with
  | nil =>
    constructor
    · simp [mcmMasters, anyCurveActive]
    · intro i
      cases hv : acc.1[i]? <;> simp [mcmMasters, mastersCurveFactor, hv]
  | cons hd rest =>
    obtain ⟨j, m, vc, vm, b⟩ := hd
    obtain ⟨hmf, hme⟩ := mcm_aux s e m acc.1
    obtain ⟨ihf, ihe⟩ := mcmMasters_aux s e rest
      (apply_gain_to_buffer (m.masters_curve_multiply s e acc.1).1 m.get_value,
        acc.2 || (m.masters_curve_multiply s e acc.1).2)
    constructor
    · rw [show mcmMasters s e (⟨j, m, vc, vm, b⟩ :: rest) acc
          = mcmMasters s e rest
            (apply_gain_to_buffer (m.masters_curve_multiply s e acc.1).1 m.get_value,
              acc.2 || (m.masters_curve_multiply s e acc.1).2) from by
          simp [mcmMasters]]
      rw [ihf, hmf]
      simp [anyCurveActive, Bool.or_assoc]
    · intro i
      rw [show mcmMasters s e (⟨j, m, vc, vm, b⟩ :: rest) acc
          = mcmMasters s e rest
            (apply_gain_to_buffer (m.masters_curve_multiply s e acc.1).1 m.get_value,
              acc.2 || (m.masters_curve_multiply s e acc.1).2) from by
          simp [mcmMasters]]
      rw [ihe i]
      dsimp only
      rw [getElem_gain, hme i]
      cases hv : acc.1[i]? with
      | none => simp [hv]
      | some x =>
        simp [hv, mastersCurveFactor]
        ring

end

/-- C9: `masters_curve_multiply (start, end, vec, len)` returns true iff
this control's own envelope evaluation succeeded or some nested master's
compositor call returned true, and the buffer comes back multiplied
index-wise by the compositional factor: the control's own envelope
sample when available — the constant current scalar value otherwise —
times, for every master, the master's own recursive factor times that
master's current scalar ratio. -/
theorem masters_curve_multiply_spec (c : Control) (s e : Nat) (vec : List ℚ) :
    (c.masters_curve_multiply s e vec).2 = Control.curveActiveDeep s e c ∧
    ∀ i : Nat, ((c.masters_curve_multiply s e vec).1)[i]?
      = (vec[i]?).map fun x => x * Control.curveFactor s e i c :=
  mcm_aux s e c vec

theorem apply_entry_mid (mr : MasterRecord Control) (e : MasterEntry) :
    (mr.apply_entry e).mid = mr.mid := rfl

theorem foldl_applyEntry_nil (es : List MasterEntry) :
    es.foldl applyEntry [] = [] := by
  induction es with
  | nil => rfl
  | cons e es ih => simp [applyEntry, ih]

theorem foldl_applyEntry_head (es : List MasterEntry) (mr : MasterRecord Control)
    (ms : List (MasterRecord Control)) (h : ∀ e ∈ es, e.mid ≠ mr.mid) :
    es.foldl applyEntry (mr :: ms) = mr :: es.foldl applyEntry ms := by
  induction es generalizing ms with
  | nil => rfl
  | cons e es ih =>
    simp only [List.foldl_cons]
    have hne : mr.mid ≠ e.mid := fun hh => (h e (by simp)) hh.symm
    rw [show applyEntry (mr :: ms) e = mr :: applyEntry ms e from by
      simp [applyEntry, hne]]
    exact ih (applyEntry ms e) fun e' he' => h e' (by simp [he'])

theorem foldl_applyEntry_zip (ms : List (MasterRecord Control)) (es : List MasterEntry)
    (hids : es.map MasterEntry.mid = ms.map MasterRecord.mid)
    (hnd : (ms.map MasterRecord.mid).Nodup) :
    es.foldl applyEntry ms = List.zipWith MasterRecord.apply_entry ms es := by
  induction ms generalizing es with
  | nil =>
    cases es with
    | nil => rfl
    | cons e es => simp at hids
  | cons mr ms ih =>
    cases es with
    | nil => simp at hids
    | cons e es =>
      simp only [List.map_cons, List.cons.injEq] at hids
      obtain ⟨hide, hids2⟩ := hids
      simp only [List.map_cons, List.nodup_cons] at hnd
      obtain ⟨hnotin, hnd2⟩ := hnd
      simp only [List.foldl_cons]
      rw [show applyEntry (mr :: ms) e = mr.apply_entry e :: ms from by
        simp [applyEntry, hide]]
      rw [foldl_applyEntry_head es (mr.apply_entry e) ms ?_]
      · rw [ih es hids2 hnd2]
        simp [List.zipWith]
      · intro e' he'
        have hmem : e'.mid ∈ ms.map MasterRecord.mid := by
          rw [← hids2]
          exact List.mem_map_of_mem MasterEntry.mid he'
        rw [apply_entry_mid]
        intro hcontra
        exact hnotin (hcontra ▸ hmem)

theorem map_yn_zip_toggled (ms1 ms0 : List (MasterRecord Control))
    (h : ms1.length = ms0.length) :
    (List.zipWith MasterRecord.apply_entry ms1
        (ms0.map fun mr => (⟨mr.master.cid, some mr.yn, none, none⟩ : MasterEntry))).map
      MasterRecord.yn = ms0.map MasterRecord.yn := by
  induction ms1 generalizing ms0 with
  | nil =>
    cases ms0 with
    | nil => rfl
    | cons b bs => simp at h
  | cons a as ih =>
    cases ms0 with
    | nil => simp at h
    | cons b bs =>
      simp only [List.length_cons, Nat.succ.injEq] at h
      simp only [List.map_cons, List.zipWith_cons_cons, List.map_cons]
      rw [ih bs h]
      simp [MasterRecord.apply_entry]

theorem map_vals_zip_continuous (ms1 ms0 : List (MasterRecord Control))
    (h : ms1.length = ms0.length) :
    ((List.zipWith MasterRecord.apply_entry ms1
        (ms0.map fun mr => (⟨mr.master.cid, none, some mr.val_ctrl, some mr.val_master⟩ :
          MasterEntry))).map MasterRecord.val_ctrl = ms0.map MasterRecord.val_ctrl) ∧
    ((List.zipWith MasterRecord.apply_entry ms1
        (ms0.map fun mr => (⟨mr.master.cid, none, some mr.val_ctrl, some mr.val_master⟩ :
          MasterEntry))).map MasterRecord.val_master = ms0.map MasterRecord.val_master) := by
  induction ms1 generalizing ms0 with
  | nil =>
    cases ms0 with
    | nil => exact ⟨rfl, rfl⟩
    | cons b bs => simp at h
  | cons a as ih =>
    cases ms0 with
    | nil => simp at h
    | cons b bs =>
      simp only [List.length_cons, Nat.succ.injEq] at h
      simp only [List.map_cons, List.zipWith_cons_cons, List.map_cons]
      obtain ⟨ih1, ih2⟩ := ih bs h
      rw [ih1, ih2]
      simp [MasterRecord.apply_entry]

/-- C8: serializing the master links (`get_state`) and restoring them via
`set_state` followed by `use_saved_master_ratios`, with the same masters
already re-attached (same registry keys, in order), restores every
record's persisted sub-state exactly — the cached boolean `yn` for
toggled controls, the `val_ctrl` / `val_master` snapshot pair for
continuous ones. -/
theorem persistence_round_trip (c0 c1 : Control)
    (hne : c0.masters ≠ [])
    (hkey : ∀ r ∈ c0.masters, r.master.cid = r.mid)
    (hnd : (c0.masters.map MasterRecord.mid).Nodup)
    (hmatch : c1.masters.map MasterRecord.mid = c0.masters.map MasterRecord.mid) :
    (c0.core.toggled = true →
      ((c1.set_state c0.get_state_masters).use_saved_master_ratios).masters.map
        MasterRecord.yn = c0.masters.map MasterRecord.yn) ∧
    (c0.core.toggled = false →
      ((c1.set_state c0.get_state_masters).use_saved_master_ratios).masters.map
          MasterRecord.val_ctrl = c0.masters.map MasterRecord.val_ctrl ∧
      ((c1.set_state c0.get_state_masters).use_saved_master_ratios).masters.map
          MasterRecord.val_master = c0.masters.map MasterRecord.val_master) := by
  cases c0 with
  | mk k0 ms0 =>
    cases c1 with
    | mk k1 ms1 =>
      simp only [Control.masters_mk, Control.core_mk] at hne hkey hnd hmatch ⊢
      have hemp : ms0.isEmpty = false := by
        cases ms0 with
        | nil => simp at hne
        | cons a l => rfl
      have hlen : ms1.length = ms0.length := by
        have := congrArg List.length hmatch
        simpa using this
      cases htog0 : k0.toggled with
      | true =>
        refine ⟨fun _ => ?_, fun hcontra => by simp [htog0] at hcontra⟩
        have hst : Control.get_state_masters (.mk k0 ms0)
            = some (ms0.map fun mr => (⟨mr.master.cid, some mr.yn, none, none⟩ :
              MasterEntry)) := by
          simp [Control.get_state_masters, hemp, htog0]
        rw [hst]
        simp only [Control.set_state, Control.use_saved_master_ratios, Control.masters_mk]
        rw [foldl_applyEntry_zip ms1 _ ?_ (hmatch ▸ hnd)]
        · exact map_yn_zip_toggled ms1 ms0 hlen
        · rw [hmatch, List.map_map]
          exact List.map_congr_left fun r hr => hkey r hr
      | false =>
        refine ⟨fun hcontra => by simp [htog0] at hcontra, fun _ => ?_⟩
        have hst : Control.get_state_masters (.mk k0 ms0)
            = some (ms0.map fun mr => (⟨mr.master.cid, none, some mr.val_ctrl,
              some mr.val_master⟩ : MasterEntry)) := by
          simp [Control.get_state_masters, hemp, htog0]
        rw [hst]
        simp only [Control.set_state, Control.use_saved_master_ratios, Control.masters_mk]
        rw [foldl_applyEntry_zip ms1 _ ?_ (hmatch ▸ hnd)]
        · exact map_vals_zip_continuous ms1 ms0 hlen
        · rw [hmatch, List.map_map]
          exact List.map_congr_left fun r hr => hkey r hr

/-- Witness for C8: `wC8a`'s snapshot pairs `(3,4)` and `(5,6)` are
restored onto the freshly re-attached registry of `wC8b`. -/
theorem persistence_round_trip_witness :
    wC8a.masters ≠ [] ∧
    (∀ r ∈ wC8a.masters, r.master.cid = r.mid) ∧
    ((wC8b.set_state wC8a.get_state_masters).use_saved_master_ratios).masters.map
        MasterRecord.val_ctrl = wC8a.masters.map MasterRecord.val_ctrl :=
  ⟨by simp [wC8a, slavedControl],
    by
      intro r hr
      simp only [wC8a, slavedControl, Control.masters_mk, List.mem_cons,
        List.mem_singleton] at hr
      rcases hr with rfl | hr
      · rfl
      · rcases hr with rfl | hr
        · rfl
        · simp at hr,
    ((persistence_round_trip wC8a wC8b (by simp [wC8a, slavedControl])
      (by
        intro r hr
        simp only [wC8a, slavedControl, Control.masters_mk, List.mem_cons,
          List.mem_singleton] at hr
        rcases hr with rfl | hr
        · rfl
        · rcases hr with rfl | hr
          · rfl
          · simp at hr)
      (by simp [wC8a, slavedControl, List.Nodup])
      (by simp [wC8a, wC8b, slavedControl])).2 rfl).1⟩

end Ardour
